import Mathlib

set_option maxHeartbeats 1000000

/-!
Shallow embedding of `src/fill_categories.py` (category-tree flattening and
batch upsert persistence).

Modelling conventions:
* Python strings are `String`; the per-character behaviour of the regexes in
  `generate_slug` is modelled over the ASCII fragment (`\w` as alphanumeric or
  underscore, `\s` as the six ASCII whitespace characters), matching the regex
  engine's behaviour on ASCII input.
* `uuid.uuid4()` is modelled by an identifier supply `gen : Nat → String`
  indexed by a call counter threaded through the traversal, and
  `datetime.now(timezone.utc)` by a clock `clock : Nat → Nat` on the same
  counter.
* The input JSON node is a `CategoryNode`: `id` and `name` are `Option String`
  (`dict.get` may miss), and an absent `childNodes` key is modelled as the
  empty child list — the code only ever iterates over the list, so absence and
  the empty list are observationally identical.
* The Python dict `slug_tracker` is an association list with unique keys.
* The database table is a list of rows with unique `id`; the SQL
  `ON CONFLICT (id) DO UPDATE SET` replaces the (unique) conflicting row.
-/

/-- The ASCII fragment of Python's regex class `\w`. -/
def isWordChar (c : Char) : Bool := c.isAlphanum || c = '_'

/-- The ASCII fragment of Python's regex class `\s`. -/
def isSpaceChar (c : Char) : Bool :=
  c = ' ' || c = '\t' || c = '\n' || c = '\r' || c = '\x0b' || c = '\x0c'

/-- A character matched by the regex class `[-\s]` (hyphen or whitespace). -/
def sepChar (c : Char) : Bool := isSpaceChar c || c = '-'

/-- A character kept by `re.sub(r'[^\w\s-]', '', slug)`. -/
def allowedChar (c : Char) : Bool := isWordChar c || isSpaceChar c || c = '-'

/-- `re.sub(r'[-\s]+', '-', slug)`: each maximal run of hyphen/whitespace
characters is replaced by a single hyphen.  The flag records whether we are
currently inside such a run (so only the first character of a run emits the
hyphen). -/
def collapseAux : Bool → List Char → List Char
  | _, [] => []
  | inRun, c :: cs =>
    if sepChar c then
      if inRun then collapseAux true cs else '-' :: collapseAux true cs
    else c :: collapseAux false cs

/-- Drop leading hyphens (one side of Python's `str.strip('-')`). -/
def dropHyphens (l : List Char) : List Char := l.dropWhile (fun c => c = '-')

/-- Python's `slug.strip('-')`: remove leading and trailing hyphens. -/
def stripHyphens (l : List Char) : List Char :=
  (dropHyphens (dropHyphens l).reverse).reverse

/-- The first two stages of `generate_slug`: `name.lower()` followed by
`re.sub(r'[^\w\s-]', '', slug)`. -/
def slugChars (name : String) : List Char :=
  (name.toList.map Char.toLower).filter allowedChar

/-- `generate_slug` from `src/fill_categories.py`: lowercase, drop characters
outside `[\w\s-]`, collapse runs of `[-\s]` to a single hyphen, strip
leading/trailing hyphens. -/
def generate_slug (name : String) : String :=
  String.mk (stripHyphens (collapseAux false (slugChars name)))

/-- The maximal runs of non-separator characters of a string, in order
(used to state the spec's description of slug normalisation). -/
def tokens (l : List Char) : List (List Char) :=
  match l with
  | [] => []
  | c :: cs =>
    if sepChar c then tokens cs
    else (c :: cs.takeWhile (fun d => !sepChar d)) :: tokens (cs.dropWhile (fun d => !sepChar d))
termination_by l.length
decreasing_by
  · simp only [List.length_cons]
    omega
  · simp only [List.length_cons]
    have h : ∀ (l : List Char), (l.dropWhile fun d => !sepChar d).length ≤ l.length := by
      intro l
      induction l with
      | nil => simp [List.dropWhile]
      | cons a as ih =>
        by_cases ha : (!sepChar a) = true
        · simpa [List.dropWhile_cons, ha] using Nat.le_succ_of_le ih
        · simp [List.dropWhile_cons, ha]
    exact Nat.lt_succ_of_le (h cs)

/-- Join word tokens with single hyphens. -/
def joinHyphen : List (List Char) → List Char
  | [] => []
  | [t] => t
  | t :: t2 :: ts => t ++ '-' :: joinHyphen (t2 :: ts)

/-- The spec's description of slug derivation, in tokenised form: lowercase,
drop disallowed characters, then emit the maximal whitespace/hyphen-free runs
joined by single hyphens (equivalently: collapse separator runs to one hyphen
and trim hyphens at both ends). -/
def slug_spec (name : String) : String :=
  String.mk (joinHyphen (tokens (slugChars name)))

mutual
/-- An input category node (one JSON object): `id` and `name` may be absent,
`childNodes` is the ordered list of children (absent key ≡ empty list). -/
inductive CategoryNode : Type where
  | mk (id : Option String) (name : Option String) (childNodes : NodeList)
/-- An ordered list of category nodes (the `childNodes` array). -/
inductive NodeList : Type where
  | nil
  | cons (c : CategoryNode) (cs : NodeList)
end

/-- The `id` field of a node (`data.get('id')`). -/
def CategoryNode.nid : CategoryNode → Option String
  | CategoryNode.mk i _ _ => i

/-- The `name` field of a node (`data.get('name', '')` before the default). -/
def CategoryNode.nname : CategoryNode → Option String
  | CategoryNode.mk _ n _ => n

/-- The children of a node. -/
def CategoryNode.children : CategoryNode → NodeList
  | CategoryNode.mk _ _ cs => cs

/-- View a `NodeList` as a `List`. -/
def NodeList.toList : NodeList → List CategoryNode
  | NodeList.nil => []
  | NodeList.cons c cs => c :: cs.toList

/-- The name a node contributes to its record: `data.get('name', '')`. -/
def nodeName (t : CategoryNode) : String := t.nname.getD ""

/-- One output row `(id, parent_id, name, slug, is_active, updated_at)`. -/
structure CategoryRecord where
  id : String
  parent_id : Option String
  name : String
  slug : String
  is_active : Bool
  updated_at : Nat
deriving DecidableEq, Repr

/-- The first component of the slug-tracker key:
`parent_id if parent_id else 'root'` (Python truthiness: `None` and the empty
string are both falsy). -/
def parentKeyStr : Option String → String
  | none => "root"
  | some s => if s = "" then "root" else s

/-- A key of the `slug_tracker` dict: `(parent-or-sentinel, base_slug)`. -/
abbrev SlugKey := String × String

/-- The `slug_tracker` dict, as an association list with unique keys. -/
abbrev Tracker := List (SlugKey × Nat)

/-- Dict lookup: `slug_tracker[key]` / `key in slug_tracker`. -/
def trFind : Tracker → SlugKey → Option Nat
  | [], _ => none
  | (k, v) :: rest, key => if k = key then some v else trFind rest key

/-- Dict write: `slug_tracker[key] = v` (replace if present, else add). -/
def trSet : Tracker → SlugKey → Nat → Tracker
  | [], key, v => [(key, v)]
  | (k, w) :: rest, key, v =>
    if k = key then (key, v) :: rest else (k, w) :: trSet rest key v

mutual
/-- `parse_categories` from `src/fill_categories.py`.  `gen`/`clock` supply
the fresh UUID string and timestamp for each call (indexed by the call
counter, the last argument); the tracker is threaded through the whole
traversal exactly as the mutated Python dict is.  Returns the emitted
records together with the final tracker and counter. -/
def parse_categories (gen : Nat → String) (clock : Nat → Nat) :
    CategoryNode → Option String → Tracker → Nat →
    List CategoryRecord × Tracker × Nat
  | CategoryNode.mk i n cs, parent, tr, ctr =>
    if i = some "root" then
      parse_categories_list gen clock cs none tr ctr
    else
      let category_id := gen ctr
      let name := n.getD ""
      let base_slug := generate_slug name
      let pk : SlugKey := (parentKeyStr parent, base_slug)
      match trFind tr pk with
      | some c =>
        let res := parse_categories_list gen clock cs (some category_id)
          (trSet tr pk (c + 1)) (ctr + 1)
        (⟨category_id, parent, name, base_slug ++ "-" ++ toString (c + 1),
          true, clock ctr⟩ :: res.1, res.2)
      | none =>
        let res := parse_categories_list gen clock cs (some category_id)
          (trSet tr pk 1) (ctr + 1)
        (⟨category_id, parent, name, base_slug, true, clock ctr⟩ :: res.1,
          res.2)
/-- The `for child in data['childNodes']` loop: parse each child in order with
the given parent, threading the tracker and counter left to right, and
concatenate the resulting record lists. -/
def parse_categories_list (gen : Nat → String) (clock : Nat → Nat) :
    NodeList → Option String → Tracker → Nat →
    List CategoryRecord × Tracker × Nat
  | NodeList.nil, _, tr, ctr => ([], tr, ctr)
  | NodeList.cons c cs, parent, tr, ctr =>
    let r1 := parse_categories gen clock c parent tr ctr
    let r2 := parse_categories_list gen clock cs parent r1.2.1 r1.2.2
    (r1.1 ++ r2.1, r2.2)
end

mutual
/-- The number of nodes of a tree whose `id` is not the sentinel `"root"`. -/
def countNonRoot : CategoryNode → Nat
  | CategoryNode.mk i _ cs => (if i = some "root" then 0 else 1) + countNonRootList cs
/-- `countNonRoot` summed over a node list. -/
def countNonRootList : NodeList → Nat
  | NodeList.nil => 0
  | NodeList.cons c cs => countNonRoot c + countNonRootList cs
end

mutual
/-- Pre-order traversal of the tree (parent before children, children in
input order), excluding every sentinel node (`id == "root"`) but still
descending into its children. -/
def preorderNonRoot : CategoryNode → List CategoryNode
  | CategoryNode.mk i n cs =>
    if i = some "root" then preorderNonRootList cs
    else CategoryNode.mk i n cs :: preorderNonRootList cs
/-- `preorderNonRoot` concatenated over a node list. -/
def preorderNonRootList : NodeList → List CategoryNode
  | NodeList.nil => []
  | NodeList.cons c cs => preorderNonRoot c ++ preorderNonRootList cs
end

/-- The identifiers `gen c, gen (c+1), ..., gen (c+n-1)` in order. -/
def idsFrom (gen : Nat → String) : Nat → Nat → List String
  | _, 0 => []
  | c, n + 1 => gen c :: idsFrom gen (c + 1) n

/-- The tracker key under which a record was emitted, recovered from the
record itself: the code keys on `(parent_id if parent_id else 'root',
generate_slug(name))` and stores both `parent_id` and `name` in the record. -/
def recKey (r : CategoryRecord) : SlugKey :=
  (parentKeyStr r.parent_id, generate_slug r.name)

/-- How many records of `l` were emitted under tracker key `k`. -/
def countKey (k : SlugKey) (l : List CategoryRecord) : Nat :=
  (l.filter (fun r => recKey r = k)).length

/-- `INSERT ... ON CONFLICT (id) DO UPDATE SET ...` for a single row: replace
the (unique) row with the same `id`, or append the new row. -/
def upsertRow : List CategoryRecord → CategoryRecord → List CategoryRecord
  | [], r => [r]
  | row :: rest, r => if row.id = r.id then r :: rest else row :: upsertRow rest r

/-- Upsert a batch of rows in order. -/
def applyUpserts (tbl : List CategoryRecord) (recs : List CategoryRecord) :
    List CategoryRecord :=
  recs.foldl upsertRow tbl

/-- The body of `execute_values`: apply the upserts row by row inside one
transaction; `failAt` injects a database error at the given row index. -/
def execBatch (failAt : Option Nat) :
    List CategoryRecord → List CategoryRecord → Nat →
    Except String (List CategoryRecord)
  | pending, [], _ => Except.ok pending
  | pending, r :: rs, i =>
    if failAt = some i then Except.error "insert failed"
    else execBatch failAt (upsertRow pending r) rs (i + 1)

/-- `insert_categories` from `src/fill_categories.py`: run the batch inside a
transaction; on success `connection.commit()` makes the new table the stored
one, on any error `connection.rollback()` keeps the old table and the
exception is re-raised (returned as `some` error). -/
def insert_categories (failAt : Option Nat) (committed : List CategoryRecord)
    (recs : List CategoryRecord) : List CategoryRecord × Option String :=
  match execBatch failAt committed recs 0 with
  | Except.ok t => (t, none)
  | Except.error e => (committed, some e)

/-- The ids column of a table. -/
def tableIds (tbl : List CategoryRecord) : List String := tbl.map (fun r => r.id)

/-- The first row with the given id, if any. -/
def lookupId : List CategoryRecord → String → Option CategoryRecord
  | [], _ => none
  | row :: rest, i => if row.id = i then some row else lookupId rest i

/-- The last record of a batch carrying the given id, if any. -/
def lastOcc : List CategoryRecord → String → Option CategoryRecord
  | [], _ => none
  | r :: rs, i =>
    match lastOcc rs i with
    | some x => some x
    | none => if r.id = i then some r else none

/-- A deterministic injective identifier supply used in concrete runs:
`n` strokes of `a`, never empty and never the sentinel `"root"`. -/
def exGen (n : Nat) : String := String.mk (List.replicate (n + 1) 'a')

/-- A second, disjoint identifier supply (strokes of `b`). -/
def exGen2 (n : Nat) : String := String.mk (List.replicate (n + 1) 'b')

/-- A constant clock for concrete runs. -/
def exClock (_ : Nat) : Nat := 0

/-- The apostrophe character. -/
def apos : Char := Char.ofNat 39

/-- The test name `Men's Shoes`. -/
def mensShoes : String :=
  String.mk ['M', 'e', 'n', apos, 's', ' ', 'S', 'h', 'o', 'e', 's']

/-- A leaf input node with the given name. -/
def leafNode (nm : String) : CategoryNode :=
  CategoryNode.mk (some "x") (some nm) NodeList.nil

/-- A root-sentinel tree with three children named `a`, `a` and `a 2`. -/
def bugTree : CategoryNode :=
  CategoryNode.mk (some "root") none
    (NodeList.cons (leafNode "a")
      (NodeList.cons (leafNode "a")
        (NodeList.cons (leafNode "a 2") NodeList.nil)))

/-- A root-sentinel tree with three children all named `Men's Shoes`. -/
def shoesTree : CategoryNode :=
  CategoryNode.mk (some "root") none
    (NodeList.cons (leafNode mensShoes)
      (NodeList.cons (leafNode mensShoes)
        (NodeList.cons (leafNode mensShoes) NodeList.nil)))

/-- A sentinel node (`id == "root"`) occurring below the top level, with one
ordinary child. -/
def innerSentinel : CategoryNode :=
  CategoryNode.mk (some "root") (some "nested") (NodeList.cons (leafNode "deep") NodeList.nil)

/-- The slug the code emits for the `j`-th record under a given tracker key:
the base slug for the first occurrence, `base-j` afterwards. -/
def slugOfCount (base : String) (j : Nat) : String :=
  if j = 1 then base else base ++ "-" ++ toString j

/-- The tracker counts, for every key, exactly the records emitted so far
under that key (and holds no other keys). -/
def TInv (tr : Tracker) (hist : List CategoryRecord) : Prop :=
  ∀ k, trFind tr k = if countKey k hist = 0 then none else some (countKey k hist)

/-- Every record of `out` carries the slug determined by its occurrence index
among the records with its tracker key, counting from `hist ++ out`. -/
def SOk (hist out : List CategoryRecord) : Prop :=
  ∀ pre r suf, out = pre ++ r :: suf →
    r.slug = slugOfCount (generate_slug r.name)
      (countKey (recKey r) hist + countKey (recKey r) pre + 1)

/-- The fields of a record that do not depend on the identifier supply or the
clock. -/
def projRec (r : CategoryRecord) : String × String × Bool :=
  (r.name, r.slug, r.is_active)

/-- Two trackers agree on all keys reachable in runs using the identifier
supplies `gen1` and `gen2` respectively. -/
def TrackerSim (gen1 gen2 : Nat → String) (tr1 tr2 : Tracker) : Prop :=
  (∀ b, trFind tr1 ("root", b) = trFind tr2 ("root", b)) ∧
  ∀ k b, trFind tr1 (gen1 k, b) = trFind tr2 (gen2 k, b)

/-- Two parent arguments correspond across the two runs: both absent, or the
identifiers generated at the same counter position. -/
def ParentSim (gen1 gen2 : Nat → String) (p1 p2 : Option String) : Prop :=
  (p1 = none ∧ p2 = none) ∨ ∃ k, p1 = some (gen1 k) ∧ p2 = some (gen2 k)

/-- An identifier supply as `uuid.uuid4()` provides: pairwise distinct values
that are never the sentinel string `"root"` and never empty (so never falsy). -/
def GoodGen (gen : Nat → String) : Prop :=
  Function.Injective gen ∧ ∀ n, gen n ≠ "root" ∧ gen n ≠ ""

/-- A concrete stored row for batch-persistence runs. -/
def rowA : CategoryRecord := ⟨"k1", none, "A", "a", true, 0⟩

/-- A second concrete row sharing `rowA`'s identifier (an overwriting upsert). -/
def rowA2 : CategoryRecord := ⟨"k1", none, "A2", "a2", true, 1⟩

/-- A concrete row with a fresh identifier. -/
def rowB : CategoryRecord := ⟨"k2", some "k1", "B", "b", true, 2⟩

/-- Mutual induction over category trees and child lists. -/
theorem node_ind {P : CategoryNode → Prop} {Q : NodeList → Prop}
    (hmk : ∀ i n cs, Q cs → P (CategoryNode.mk i n cs))
    (hnil : Q NodeList.nil)
    (hcons : ∀ c cs, P c → Q cs → Q (NodeList.cons c cs)) :
    (∀ t, P t) ∧ ∀ ts, Q ts :=
  ⟨fun t => @CategoryNode.rec P Q hmk hnil hcons t,
   fun ts => @NodeList.rec P Q hmk hnil hcons ts⟩

theorem parse_list_nil (gen : Nat → String) (clock : Nat → Nat)
    (parent : Option String) (tr : Tracker) (ctr : Nat) :
    parse_categories_list gen clock NodeList.nil parent tr ctr = ([], tr, ctr) := rfl

theorem parse_list_cons (gen : Nat → String) (clock : Nat → Nat)
    (c : CategoryNode) (cs : NodeList) (parent : Option String) (tr : Tracker) (ctr : Nat) :
    parse_categories_list gen clock (NodeList.cons c cs) parent tr ctr =
      ((parse_categories gen clock c parent tr ctr).1 ++
        (parse_categories_list gen clock cs parent
          (parse_categories gen clock c parent tr ctr).2.1
          (parse_categories gen clock c parent tr ctr).2.2).1,
       (parse_categories_list gen clock cs parent
          (parse_categories gen clock c parent tr ctr).2.1
          (parse_categories gen clock c parent tr ctr).2.2).2) := rfl

theorem parse_root (gen : Nat → String) (clock : Nat → Nat)
    (i n : Option String) (cs : NodeList) (parent : Option String) (tr : Tracker) (ctr : Nat)
    (h : i = some "root") :
    parse_categories gen clock (CategoryNode.mk i n cs) parent tr ctr =
      parse_categories_list gen clock cs none tr ctr := by
  subst h
  simp [parse_categories]

theorem parse_mk_new (gen : Nat → String) (clock : Nat → Nat)
    (i n : Option String) (cs : NodeList) (parent : Option String) (tr : Tracker) (ctr : Nat)
    (h : ¬ i = some "root")
    (hfind : trFind tr (parentKeyStr parent, generate_slug (n.getD "")) = none) :
    parse_categories gen clock (CategoryNode.mk i n cs) parent tr ctr =
      (⟨gen ctr, parent, n.getD "", generate_slug (n.getD ""), true, clock ctr⟩ ::
        (parse_categories_list gen clock cs (some (gen ctr))
          (trSet tr (parentKeyStr parent, generate_slug (n.getD "")) 1) (ctr + 1)).1,
       (parse_categories_list gen clock cs (some (gen ctr))
          (trSet tr (parentKeyStr parent, generate_slug (n.getD "")) 1) (ctr + 1)).2) := by
  simp only [parse_categories, if_neg h, hfind]

theorem parse_mk_found (gen : Nat → String) (clock : Nat → Nat)
    (i n : Option String) (cs : NodeList) (parent : Option String) (tr : Tracker) (ctr : Nat)
    (c : Nat) (h : ¬ i = some "root")
    (hfind : trFind tr (parentKeyStr parent, generate_slug (n.getD "")) = some c) :
    parse_categories gen clock (CategoryNode.mk i n cs) parent tr ctr =
      (⟨gen ctr, parent, n.getD "",
          generate_slug (n.getD "") ++ "-" ++ toString (c + 1), true, clock ctr⟩ ::
        (parse_categories_list gen clock cs (some (gen ctr))
          (trSet tr (parentKeyStr parent, generate_slug (n.getD "")) (c + 1)) (ctr + 1)).1,
       (parse_categories_list gen clock cs (some (gen ctr))
          (trSet tr (parentKeyStr parent, generate_slug (n.getD "")) (c + 1)) (ctr + 1)).2) := by
  simp only [parse_categories, if_neg h, hfind]

theorem parse_counter_all (gen : Nat → String) (clock : Nat → Nat) :
    (∀ t : CategoryNode, ∀ parent tr ctr,
      (parse_categories gen clock t parent tr ctr).2.2 = ctr + countNonRoot t) ∧
    ∀ ts : NodeList, ∀ parent tr ctr,
      (parse_categories_list gen clock ts parent tr ctr).2.2 = ctr + countNonRootList ts := by
  apply node_ind
  · intro i n cs ih parent tr ctr
    by_cases h : i = some "root"
    · rw [parse_root gen clock i n cs parent tr ctr h, ih none tr ctr]
      simp [countNonRoot, h]
    · cases hfind : trFind tr (parentKeyStr parent, generate_slug (n.getD "")) with
      | none =>
        rw [parse_mk_new gen clock i n cs parent tr ctr h hfind]
        simp only []
        rw [ih (some (gen ctr)) _ (ctr + 1)]
        simp [countNonRoot, h]
        omega
      | some c =>
        rw [parse_mk_found gen clock i n cs parent tr ctr c h hfind]
        simp only []
        rw [ih (some (gen ctr)) _ (ctr + 1)]
        simp [countNonRoot, h]
        omega
  · intro parent tr ctr
    rw [parse_list_nil]
    simp [countNonRootList]
  · intro c cs ihc ihcs parent tr ctr
    rw [parse_list_cons]
    simp only []
    rw [ihcs parent _ _, ihc parent tr ctr]
    simp [countNonRootList]
    omega

theorem parse_counter (gen : Nat → String) (clock : Nat → Nat)
    (t : CategoryNode) (parent : Option String) (tr : Tracker) (ctr : Nat) :
    (parse_categories gen clock t parent tr ctr).2.2 = ctr + countNonRoot t :=
  (parse_counter_all gen clock).1 t parent tr ctr

theorem parse_list_counter (gen : Nat → String) (clock : Nat → Nat)
    (ts : NodeList) (parent : Option String) (tr : Tracker) (ctr : Nat) :
    (parse_categories_list gen clock ts parent tr ctr).2.2 = ctr + countNonRootList ts :=
  (parse_counter_all gen clock).2 ts parent tr ctr

theorem parse_length_all (gen : Nat → String) (clock : Nat → Nat) :
    (∀ t : CategoryNode, ∀ parent tr ctr,
      (parse_categories gen clock t parent tr ctr).1.length = countNonRoot t) ∧
    ∀ ts : NodeList, ∀ parent tr ctr,
      (parse_categories_list gen clock ts parent tr ctr).1.length = countNonRootList ts := by
  apply node_ind
  · intro i n cs ih parent tr ctr
    by_cases h : i = some "root"
    · rw [parse_root gen clock i n cs parent tr ctr h, ih none tr ctr]
      simp [countNonRoot, h]
    · cases hfind : trFind tr (parentKeyStr parent, generate_slug (n.getD "")) with
      | none =>
        rw [parse_mk_new gen clock i n cs parent tr ctr h hfind]
        simp only [List.length_cons]
        rw [ih (some (gen ctr)) _ (ctr + 1)]
        simp [countNonRoot, h]
        omega
      | some c =>
        rw [parse_mk_found gen clock i n cs parent tr ctr c h hfind]
        simp only [List.length_cons]
        rw [ih (some (gen ctr)) _ (ctr + 1)]
        simp [countNonRoot, h]
        omega
  · intro parent tr ctr
    rw [parse_list_nil]
    simp [countNonRootList]
  · intro c cs ihc ihcs parent tr ctr
    rw [parse_list_cons]
    simp only [List.length_append]
    rw [ihcs parent _ _, ihc parent tr ctr]
    simp [countNonRootList]

/-- C4: for every input tree, every parent argument and every starting
tracker and counter state, the number of records emitted by
`parse_categories` equals the number of non-root nodes of the tree. -/
theorem spec_C4 (gen : Nat → String) (clock : Nat → Nat)
    (t : CategoryNode) (parent : Option String) (tr : Tracker) (ctr : Nat) :
    (parse_categories gen clock t parent tr ctr).1.length = countNonRoot t :=
  (parse_length_all gen clock).1 t parent tr ctr

/-- C1: the sibling-slug uniqueness invariant fails on the code.  For the
root-sentinel tree with children named `a`, `a` and `a 2`, the flattener
emits the slugs `a`, `a-2`, `a-2`: the second and third records share both
`parent_id` (absent) and slug `a-2`, so two emitted records with the same
parent have equal slugs. -/
theorem spec_C1 :
    ((parse_categories exGen exClock bugTree none [] 0).1.map
      fun r => (r.parent_id, r.slug)) = [(none, "a"), (none, "a-2"), (none, "a-2")] ∧
    ∃ r1 ∈ (parse_categories exGen exClock bugTree none [] 0).1,
      ∃ r2 ∈ (parse_categories exGen exClock bugTree none [] 0).1,
        r1 ≠ r2 ∧ r1.parent_id = r2.parent_id ∧ r1.slug = r2.slug := by
  constructor
  · decide
  · decide

theorem nonsep_ne_hyphen {x : Char} (h : sepChar x = false) : ¬ x = '-' := by
  intro he
  rw [he] at h
  exact absurd h (by decide)

theorem collapse_true_first : ∀ (l : List Char) (x : Char) (xs : List Char),
    collapseAux true l = x :: xs → sepChar x = false := by
  intro l
  induction l with
  | nil =>
    intro x xs h
    simp [collapseAux] at h
  | cons c cs ih =>
    intro x xs h
    cases hc : sepChar c with
    | true => exact ih x xs (by simpa [collapseAux, hc] using h)
    | false =>
      rw [show collapseAux true (c :: cs) = c :: collapseAux false cs by
        simp [collapseAux, hc]] at h
      injection h with h1 h2
      rw [← h1]
      exact hc

theorem dropH_collapse (l : List Char) :
    dropHyphens (collapseAux false l) = collapseAux true l := by
  cases l with
  | nil => rfl
  | cons c cs =>
    cases hc : sepChar c with
    | true =>
      rw [show collapseAux false (c :: cs) = '-' :: collapseAux true cs by
          simp [collapseAux, hc],
        show collapseAux true (c :: cs) = collapseAux true cs by simp [collapseAux, hc]]
      show List.dropWhile (fun x => x = '-') ('-' :: collapseAux true cs) = _
      rw [List.dropWhile_cons]
      simp only [if_pos (by decide : ('-' = '-') = true)]
      cases hX : collapseAux true cs with
      | nil => rfl
      | cons x xs =>
        have hx : sepChar x = false := collapse_true_first cs x xs hX
        rw [List.dropWhile_cons]
        simp [nonsep_ne_hyphen hx]
    | false =>
      rw [show collapseAux false (c :: cs) = c :: collapseAux false cs by
          simp [collapseAux, hc],
        show collapseAux true (c :: cs) = c :: collapseAux false cs by
          simp [collapseAux, hc]]
      show List.dropWhile (fun x => x = '-') (c :: collapseAux false cs) = _
      rw [List.dropWhile_cons]
      simp [nonsep_ne_hyphen hc]

theorem dropHyphens_eq_self (X : List Char) (h : ∀ x ∈ X, ¬ x = '-') :
    dropHyphens X = X := by
  cases X with
  | nil => rfl
  | cons x xs =>
    show List.dropWhile (fun c => c = '-') (x :: xs) = x :: xs
    rw [List.dropWhile_cons]
    simp [h x (List.mem_cons_self x xs)]

theorem stripT_eq_self (X : List Char) (h : ∀ x ∈ X, ¬ x = '-') :
    (dropHyphens X.reverse).reverse = X := by
  rw [dropHyphens_eq_self X.reverse (fun x hx => h x (List.mem_reverse.mp hx)),
    List.reverse_reverse]

theorem dropHyphens_eq_nil (X : List Char) (h : ∀ x ∈ X, x = '-') :
    dropHyphens X = [] := by
  induction X with
  | nil => rfl
  | cons x xs ih =>
    show List.dropWhile (fun c => c = '-') (x :: xs) = []
    rw [List.dropWhile_cons]
    simp only [h x (List.mem_cons_self x xs), if_pos]
    exact ih fun y hy => h y (List.mem_cons_of_mem x hy)

theorem stripT_append_all (A B : List Char) (hB : ∀ x ∈ B, x = '-') :
    (dropHyphens ((A ++ B).reverse)).reverse = (dropHyphens A.reverse).reverse := by
  rw [List.reverse_append]
  show (List.dropWhile (fun c => c = '-') (B.reverse ++ A.reverse)).reverse = _
  rw [List.dropWhile_append]
  have hBrev : List.dropWhile (fun c => c = '-') B.reverse = [] :=
    dropHyphens_eq_nil B.reverse fun x hx => hB x (List.mem_reverse.mp hx)
  rw [hBrev]
  rfl

theorem dropHyphens_nil_all : ∀ l : List Char, dropHyphens l = [] → ∀ x ∈ l, x = '-' := by
  intro l
  induction l with
  | nil =>
    intro _ x hx
    simp at hx
  | cons c cs ih =>
    intro h x hx
    by_cases hc : c = '-'
    · rcases List.mem_cons.mp hx with heq | hmem
      · rw [heq]
        exact hc
      · refine ih ?_ x hmem
        rw [show dropHyphens (c :: cs) = dropHyphens cs by
          simp [dropHyphens, List.dropWhile_cons, hc]] at h
        exact h
    · exfalso
      rw [show dropHyphens (c :: cs) = c :: cs by
        simp [dropHyphens, List.dropWhile_cons, hc]] at h
      exact List.cons_ne_nil _ _ h

theorem dropHyphens_append (X Y : List Char) :
    dropHyphens (X ++ Y) =
      if (dropHyphens X).isEmpty = true then dropHyphens Y else dropHyphens X ++ Y := by
  simp only [dropHyphens]
  exact List.dropWhile_append

theorem stripT_append_ex (A B : List Char) (hB : ∃ x ∈ B, ¬ x = '-') :
    (dropHyphens ((A ++ B).reverse)).reverse = A ++ (dropHyphens B.reverse).reverse := by
  rw [List.reverse_append, dropHyphens_append]
  have hnn : dropHyphens B.reverse ≠ [] := by
    intro hnil
    obtain ⟨x, hx, hxne⟩ := hB
    exact hxne (dropHyphens_nil_all B.reverse hnil x (List.mem_reverse.mpr hx))
  have hie : (dropHyphens B.reverse).isEmpty = false := by
    cases hD : dropHyphens B.reverse with
    | nil => exact absurd hD hnn
    | cons d ds => rfl
  rw [hie]
  simp only [Bool.false_eq_true, if_false]
  rw [List.reverse_append, List.reverse_reverse]

theorem tokens_nil_all_sep : ∀ l : List Char, tokens l = [] → ∀ x ∈ l, sepChar x = true := by
  intro l
  induction l using tokens.induct with
  | case1 =>
    intro _ x hx
    simp at hx
  | case2 c cs hc ih =>
    intro h x hx
    rw [show tokens (c :: cs) = tokens cs by rw [tokens]; simp [hc]] at h
    rcases List.mem_cons.mp hx with hx | hx
    · rw [hx]
      exact hc
    · exact ih h x hx
  | case3 c cs hc ih =>
    intro h
    rw [show tokens (c :: cs) =
        (c :: cs.takeWhile (fun d => !sepChar d)) :: tokens (cs.dropWhile (fun d => !sepChar d)) by
      rw [tokens]; simp [hc]] at h
    simp at h

theorem tokens_ne_nil_nonsep : ∀ l : List Char, tokens l ≠ [] → ∃ x ∈ l, sepChar x = false := by
  intro l
  induction l using tokens.induct with
  | case1 =>
    intro h
    exact absurd (by rw [tokens]) h
  | case2 c cs hc ih =>
    intro h
    rw [show tokens (c :: cs) = tokens cs by rw [tokens]; simp [hc]] at h
    obtain ⟨x, hx, hxs⟩ := ih h
    exact ⟨x, List.mem_cons_of_mem c hx, hxs⟩
  | case3 c cs hc _ =>
    intro _
    exact ⟨c, List.mem_cons_self c cs, by simpa using hc⟩

theorem collapse_true_nil_all_sep (l : List Char) (h : ∀ x ∈ l, sepChar x = true) :
    collapseAux true l = [] := by
  induction l with
  | nil => rfl
  | cons c cs ih =>
    rw [show collapseAux true (c :: cs) = collapseAux true cs by
      simp [collapseAux, h c (List.mem_cons_self c cs)]]
    exact ih fun x hx => h x (List.mem_cons_of_mem c hx)

theorem mem_collapse_of_nonsep :
    ∀ (l : List Char) (b : Bool) (x : Char), x ∈ l → sepChar x = false →
      x ∈ collapseAux b l := by
  intro l
  induction l with
  | nil =>
    intro b x hx
    simp at hx
  | cons c cs ih =>
    intro b x hx hxs
    rcases List.mem_cons.mp hx with heq | hx
    · subst heq
      rw [show collapseAux b (x :: cs) = x :: collapseAux false cs by
        simp [collapseAux, hxs]]
      exact List.mem_cons_self _ _
    · cases hc : sepChar c with
      | true =>
        cases b with
        | true =>
          rw [show collapseAux true (c :: cs) = collapseAux true cs by
            simp [collapseAux, hc]]
          exact ih true x hx hxs
        | false =>
          rw [show collapseAux false (c :: cs) = '-' :: collapseAux true cs by
            simp [collapseAux, hc]]
          exact List.mem_cons_of_mem _ (ih true x hx hxs)
      | false =>
        rw [show collapseAux b (c :: cs) = c :: collapseAux false cs by
          simp [collapseAux, hc]]
        exact List.mem_cons_of_mem _ (ih false x hx hxs)

theorem collapse_false_append_nonsep (t r : List Char)
    (h : ∀ x ∈ t, sepChar x = false) :
    collapseAux false (t ++ r) = t ++ collapseAux false r := by
  induction t with
  | nil => rfl
  | cons c cs ih =>
    have hc : sepChar c = false := h c (List.mem_cons_self c cs)
    rw [List.cons_append,
      show collapseAux false (c :: (cs ++ r)) = c :: collapseAux false (cs ++ r) by
        simp [collapseAux, hc],
      ih fun x hx => h x (List.mem_cons_of_mem c hx)]
    rfl

theorem dropWhile_head_sep : ∀ (l : List Char) (d : Char) (ds : List Char),
    l.dropWhile (fun x => !sepChar x) = d :: ds → sepChar d = true := by
  intro l
  induction l with
  | nil =>
    intro d ds h
    simp at h
  | cons c cs ih =>
    intro d ds h
    rw [List.dropWhile_cons] at h
    by_cases hc : (!sepChar c) = true
    · rw [if_pos hc] at h
      exact ih d ds h
    · rw [if_neg hc] at h
      injection h with h1 _
      rw [← h1]
      simpa using hc

theorem collapse_strip_eq_join : ∀ l : List Char,
    (dropHyphens (collapseAux true l).reverse).reverse = joinHyphen (tokens l) := by
  intro l
  induction l using tokens.induct with
  | case1 =>
    rw [tokens]
    rfl
  | case2 c cs hc ih =>
    rw [show tokens (c :: cs) = tokens cs by rw [tokens]; simp [hc],
      show collapseAux true (c :: cs) = collapseAux true cs by simp [collapseAux, hc]]
    exact ih
  | case3 c cs hc ih =>
    have hc' : sepChar c = false := by simpa using hc
    have htksep : ∀ x ∈ cs.takeWhile (fun e => !sepChar e), sepChar x = false := by
      intro x hx
      simpa using List.mem_takeWhile_imp hx
    have hcol : collapseAux false cs =
        (cs.takeWhile fun e => !sepChar e) ++
          collapseAux false (cs.dropWhile fun e => !sepChar e) := by
      conv_lhs => rw [← List.takeWhile_append_dropWhile (fun e => !sepChar e) cs]
      exact collapse_false_append_nonsep _ _ htksep
    rw [show tokens (c :: cs) =
        (c :: cs.takeWhile (fun e => !sepChar e)) :: tokens (cs.dropWhile (fun e => !sepChar e)) by
      rw [tokens]; simp [hc],
      show collapseAux true (c :: cs) = c :: collapseAux false cs by
        simp [collapseAux, hc'],
      hcol]
    cases hr : cs.dropWhile (fun e => !sepChar e) with
    | nil =>
      rw [show collapseAux false ([] : List Char) = [] from rfl, List.append_nil,
        show tokens ([] : List Char) = [] by rw [tokens],
        show joinHyphen [c :: cs.takeWhile fun e => !sepChar e] =
          c :: cs.takeWhile fun e => !sepChar e from rfl]
      apply stripT_eq_self
      intro x hx
      rcases List.mem_cons.mp hx with heq | hmem
      · rw [heq]
        exact nonsep_ne_hyphen hc'
      · exact nonsep_ne_hyphen (htksep x hmem)
    | cons d ds =>
      have hd : sepChar d = true := dropWhile_head_sep cs d ds hr
      rw [hr] at ih
      rw [show collapseAux true (d :: ds) = collapseAux true ds by
          simp [collapseAux, hd],
        show tokens (d :: ds) = tokens ds by rw [tokens]; simp [hd]] at ih
      rw [show collapseAux false (d :: ds) = '-' :: collapseAux true ds by
          simp [collapseAux, hd],
        show tokens (d :: ds) = tokens ds by rw [tokens]; simp [hd],
        show c :: ((cs.takeWhile fun e => !sepChar e) ++ '-' :: collapseAux true ds) =
          (c :: cs.takeWhile fun e => !sepChar e) ++ '-' :: collapseAux true ds from rfl]
      cases htk : tokens ds with
      | nil =>
        have hds : ∀ x ∈ ds, sepChar x = true := tokens_nil_all_sep ds htk
        rw [collapse_true_nil_all_sep ds hds,
          show ('-' :: ([] : List Char)) = ['-'] from rfl,
          stripT_append_all _ ['-'] (by intro x hx; simpa using hx),
          show joinHyphen [c :: cs.takeWhile fun e => !sepChar e] =
            c :: cs.takeWhile fun e => !sepChar e from rfl]
        apply stripT_eq_self
        intro x hx
        rcases List.mem_cons.mp hx with heq | hmem
        · rw [heq]
          exact nonsep_ne_hyphen hc'
        · exact nonsep_ne_hyphen (htksep x hmem)
      | cons tok more =>
        have hex : ∃ x ∈ ds, sepChar x = false :=
          tokens_ne_nil_nonsep ds (by rw [htk]; simp)
        obtain ⟨x, hxmem, hxsep⟩ := hex
        have hxcol : x ∈ collapseAux true ds := mem_collapse_of_nonsep ds true x hxmem hxsep
        have hBex : ∃ y ∈ '-' :: collapseAux true ds, ¬ y = '-' :=
          ⟨x, List.mem_cons_of_mem _ hxcol, nonsep_ne_hyphen hxsep⟩
        rw [stripT_append_ex _ _ hBex]
        have hex2 : ∃ y ∈ collapseAux true ds, ¬ y = '-' :=
          ⟨x, hxcol, nonsep_ne_hyphen hxsep⟩
        rw [show ('-' :: collapseAux true ds) = ['-'] ++ collapseAux true ds from rfl,
          stripT_append_ex ['-'] _ hex2, ih, htk]
        rfl

/-- C5: `generate_slug` implements the spec's slug derivation — lowercase the
name, drop every character that is not a word character, whitespace or a
hyphen, collapse each run of whitespace/hyphens to a single hyphen and trim
hyphens at both ends (equivalently: join the maximal separator-free runs
with single hyphens) — and on the examples: the name `Men's Shoes` slugs to
`mens-shoes`, and an empty or missing name yields the empty slug. -/
theorem spec_C5 :
    (∀ name, generate_slug name = slug_spec name) ∧
    generate_slug mensShoes = "mens-shoes" ∧
    generate_slug "" = "" := by
  refine ⟨?_, by decide, rfl⟩
  intro name
  show String.mk (stripHyphens (collapseAux false (slugChars name))) = _
  rw [show stripHyphens (collapseAux false (slugChars name)) =
      (dropHyphens (dropHyphens (collapseAux false (slugChars name))).reverse).reverse from rfl,
    dropH_collapse, collapse_strip_eq_join]
  rfl

theorem idsFrom_append (gen : Nat → String) (c m n : Nat) :
    idsFrom gen c (m + n) = idsFrom gen c m ++ idsFrom gen (c + m) n := by
  induction m generalizing c with
  | zero => simp [idsFrom]
  | succ m ih =>
    rw [show m + 1 + n = (m + n) + 1 by omega]
    show gen c :: idsFrom gen (c + 1) (m + n) = _
    rw [ih (c + 1)]
    simp [idsFrom]
    rw [show c + 1 + m = c + (m + 1) by omega]

theorem parse_names_all (gen : Nat → String) (clock : Nat → Nat) :
    (∀ t : CategoryNode, ∀ parent tr ctr,
      ((parse_categories gen clock t parent tr ctr).1.map fun r => r.name) =
        (preorderNonRoot t).map nodeName) ∧
    ∀ ts : NodeList, ∀ parent tr ctr,
      ((parse_categories_list gen clock ts parent tr ctr).1.map fun r => r.name) =
        (preorderNonRootList ts).map nodeName := by
  apply node_ind
  · intro i n cs ih parent tr ctr
    by_cases h : i = some "root"
    · rw [parse_root gen clock i n cs parent tr ctr h, ih none tr ctr]
      simp [preorderNonRoot, h]
    · cases hfind : trFind tr (parentKeyStr parent, generate_slug (n.getD "")) with
      | none =>
        rw [parse_mk_new gen clock i n cs parent tr ctr h hfind]
        simp only [List.map_cons]
        rw [ih (some (gen ctr)) _ (ctr + 1)]
        simp [preorderNonRoot, h, nodeName, CategoryNode.nname]
      | some c =>
        rw [parse_mk_found gen clock i n cs parent tr ctr c h hfind]
        simp only [List.map_cons]
        rw [ih (some (gen ctr)) _ (ctr + 1)]
        simp [preorderNonRoot, h, nodeName, CategoryNode.nname]
  · intro parent tr ctr
    rw [parse_list_nil]
    simp [preorderNonRootList]
  · intro c cs ihc ihcs parent tr ctr
    rw [parse_list_cons]
    simp only [List.map_append]
    rw [ihcs parent _ _, ihc parent tr ctr]
    simp [preorderNonRootList]

theorem parse_ids_all (gen : Nat → String) (clock : Nat → Nat) :
    (∀ t : CategoryNode, ∀ parent tr ctr,
      ((parse_categories gen clock t parent tr ctr).1.map fun r => r.id) =
        idsFrom gen ctr (countNonRoot t)) ∧
    ∀ ts : NodeList, ∀ parent tr ctr,
      ((parse_categories_list gen clock ts parent tr ctr).1.map fun r => r.id) =
        idsFrom gen ctr (countNonRootList ts) := by
  apply node_ind
  · intro i n cs ih parent tr ctr
    by_cases h : i = some "root"
    · rw [parse_root gen clock i n cs parent tr ctr h, ih none tr ctr]
      simp [countNonRoot, h]
    · cases hfind : trFind tr (parentKeyStr parent, generate_slug (n.getD "")) with
      | none =>
        rw [parse_mk_new gen clock i n cs parent tr ctr h hfind]
        simp only [List.map_cons]
        rw [ih (some (gen ctr)) _ (ctr + 1)]
        simp [countNonRoot, h]
        rw [show 1 + countNonRootList cs = countNonRootList cs + 1 by omega]
        rfl
      | some c =>
        rw [parse_mk_found gen clock i n cs parent tr ctr c h hfind]
        simp only [List.map_cons]
        rw [ih (some (gen ctr)) _ (ctr + 1)]
        simp [countNonRoot, h]
        rw [show 1 + countNonRootList cs = countNonRootList cs + 1 by omega]
        rfl
  · intro parent tr ctr
    rw [parse_list_nil]
    simp [countNonRootList, idsFrom]
  · intro c cs ihc ihcs parent tr ctr
    rw [parse_list_cons]
    simp only [List.map_append]
    rw [ihcs parent _ _, ihc parent tr ctr, parse_counter gen clock c parent tr ctr]
    simp [countNonRootList, idsFrom_append]

/-- C2: the output of `parse_categories` is the pre-order traversal of the
input tree with the sentinel nodes removed: the emitted records, in order,
carry exactly the names of the pre-order (parent first, children in input
order) listing of the non-root nodes, and their freshly generated
identifiers are drawn from the supply at consecutive counter positions in
that same order (so each node's record precedes its descendants' records and
an earlier sibling's subtree precedes a later sibling's). -/
theorem spec_C2 (gen : Nat → String) (clock : Nat → Nat)
    (t : CategoryNode) (parent : Option String) (tr : Tracker) (ctr : Nat) :
    ((parse_categories gen clock t parent tr ctr).1.map fun r => r.name) =
      (preorderNonRoot t).map nodeName ∧
    ((parse_categories gen clock t parent tr ctr).1.map fun r => r.id) =
      idsFrom gen ctr (countNonRoot t) :=
  ⟨(parse_names_all gen clock).1 t parent tr ctr,
   (parse_ids_all gen clock).1 t parent tr ctr⟩

theorem parse_head_parent (gen : Nat → String) (clock : Nat → Nat)
    (t : CategoryNode) (parent : Option String) (tr : Tracker) (ctr : Nat)
    (h : t.nid ≠ some "root") :
    ((parse_categories gen clock t parent tr ctr).1.head?.map fun r => r.parent_id) =
      some parent := by
  cases t with
  | mk i n cs =>
    have h' : ¬ i = some "root" := by simpa [CategoryNode.nid] using h
    cases hfind : trFind tr (parentKeyStr parent, generate_slug (n.getD "")) with
    | none =>
      rw [parse_mk_new gen clock i n cs parent tr ctr h' hfind]
      simp
    | some c =>
      rw [parse_mk_found gen clock i n cs parent tr ctr c h' hfind]
      simp

/-- C3: a node whose `id` is the sentinel `"root"` contributes no record: the
traversal just recurses into its children with no parent, and each non-root
direct child's own record (the first record of its segment) has `parent_id`
absent. -/
theorem spec_C3 (gen : Nat → String) (clock : Nat → Nat)
    (t : CategoryNode) (parent : Option String) (tr : Tracker) (ctr : Nat)
    (h : t.nid = some "root") :
    parse_categories gen clock t parent tr ctr =
      parse_categories_list gen clock t.children none tr ctr ∧
    ∀ c ∈ t.children.toList, c.nid ≠ some "root" → ∀ tr2 ctr2,
      ((parse_categories gen clock c none tr2 ctr2).1.head?.map fun r => r.parent_id) =
        some none := by
  cases t with
  | mk i n cs =>
    refine ⟨parse_root gen clock i n cs parent tr ctr (by simpa [CategoryNode.nid] using h), ?_⟩
    intro c _ hcroot tr2 ctr2
    exact parse_head_parent gen clock c none tr2 ctr2 hcroot

theorem spec_C3_witness :
    bugTree.nid = some "root" ∧
    parse_categories exGen exClock bugTree none [] 0 =
      parse_categories_list exGen exClock bugTree.children none [] 0 ∧
    ((parse_categories exGen exClock (leafNode "a") none [] 0).1.head?.map
      fun r => r.parent_id) = some none :=
  ⟨rfl, (spec_C3 exGen exClock bugTree none [] 0 rfl).1,
   (spec_C3 exGen exClock bugTree none [] 0 rfl).2 (leafNode "a")
     (List.Mem.head _) (by decide) [] 0⟩

/-- C10: the sentinel check applies at every depth, not only at the top
level: any node with `id == "root"` emits no record, its children are parsed
with parent `none` whatever parent the sentinel itself was reached with (the
result does not depend on that parent at all), and each non-root direct
child's own record gets `parent_id` absent — the subtree is re-rooted to the
top level instead of being attached to the sentinel's own parent. -/
theorem spec_C10 (gen : Nat → String) (clock : Nat → Nat)
    (nm : Option String) (cs : NodeList) (parent : Option String) (tr : Tracker) (ctr : Nat) :
    parse_categories gen clock (CategoryNode.mk (some "root") nm cs) parent tr ctr =
      parse_categories_list gen clock cs none tr ctr ∧
    (∀ parent2, parse_categories gen clock (CategoryNode.mk (some "root") nm cs) parent tr ctr =
      parse_categories gen clock (CategoryNode.mk (some "root") nm cs) parent2 tr ctr) ∧
    ∀ c ∈ cs.toList, c.nid ≠ some "root" → ∀ tr2 ctr2,
      ((parse_categories gen clock c none tr2 ctr2).1.head?.map fun r => r.parent_id) =
        some none := by
  refine ⟨parse_root gen clock (some "root") nm cs parent tr ctr rfl, ?_, ?_⟩
  · intro parent2
    rw [parse_root gen clock (some "root") nm cs parent tr ctr rfl,
      parse_root gen clock (some "root") nm cs parent2 tr ctr rfl]
  · intro c _ hcroot tr2 ctr2
    exact parse_head_parent gen clock c none tr2 ctr2 hcroot

theorem spec_C10_witness :
    parse_categories exGen exClock innerSentinel (some "p") [] 0 =
      parse_categories_list exGen exClock (NodeList.cons (leafNode "deep") NodeList.nil)
        none [] 0 ∧
    parse_categories exGen exClock innerSentinel (some "p") [] 0 =
      parse_categories exGen exClock innerSentinel none [] 0 ∧
    ((parse_categories exGen exClock (leafNode "deep") none [] 0).1.head?.map
      fun r => r.parent_id) = some none ∧
    ((parse_categories exGen exClock innerSentinel (some "p") [] 0).1.map
      fun r => r.parent_id) = [none] :=
  ⟨(spec_C10 exGen exClock (some "nested") (NodeList.cons (leafNode "deep") NodeList.nil)
      (some "p") [] 0).1,
   (spec_C10 exGen exClock (some "nested") (NodeList.cons (leafNode "deep") NodeList.nil)
      (some "p") [] 0).2.1 none,
   (spec_C10 exGen exClock (some "nested") (NodeList.cons (leafNode "deep") NodeList.nil)
      (some "p") [] 0).2.2 (leafNode "deep") (List.Mem.head _) (by decide) [] 0,
   by decide⟩

theorem trFind_trSet : ∀ (tr : Tracker) (k : SlugKey) (v : Nat) (k' : SlugKey),
    trFind (trSet tr k v) k' = if k' = k then some v else trFind tr k' := by
  intro tr
  induction tr with
  | nil =>
    intro k v k'
    by_cases h : k' = k
    · simp [trSet, trFind, h]
    · have h2 : ¬ k = k' := fun hc => h hc.symm
      simp [trSet, trFind, h, h2]
  | cons kv rest ih =>
    intro k v k'
    obtain ⟨k0, w⟩ := kv
    by_cases h0 : k0 = k
    · subst h0
      rw [show trSet ((k0, w) :: rest) k0 v = (k0, v) :: rest by simp [trSet]]
      by_cases h : k' = k0
      · simp [trFind, h]
      · have h2 : ¬ k0 = k' := fun hc => h hc.symm
        simp [trFind, h, h2]
    · rw [show trSet ((k0, w) :: rest) k v = (k0, w) :: trSet rest k v by simp [trSet, h0]]
      by_cases h1 : k0 = k'
      · subst h1
        have hk : ¬ k0 = k := h0
        simp [trFind, ih k v k0, fun hc : k0 = k => h0 hc]
      · simp [trFind, h1, ih k v k']

theorem countKey_append (k : SlugKey) (l1 l2 : List CategoryRecord) :
    countKey k (l1 ++ l2) = countKey k l1 + countKey k l2 := by
  simp [countKey, List.filter_append]

theorem countKey_cons (k : SlugKey) (r : CategoryRecord) (l : List CategoryRecord) :
    countKey k (r :: l) = (if recKey r = k then 1 else 0) + countKey k l := by
  by_cases h : recKey r = k
  · simp [countKey, List.filter_cons, h]
    omega
  · simp [countKey, List.filter_cons, h]

theorem split_middle {α : Type} : ∀ (l1 l2 pre suf : List α) (r : α),
    l1 ++ l2 = pre ++ r :: suf →
    (∃ s1, l1 = pre ++ r :: s1) ∨ (∃ p2, pre = l1 ++ p2 ∧ l2 = p2 ++ r :: suf) := by
  intro l1
  induction l1 with
  | nil =>
    intro l2 pre suf r h
    exact Or.inr ⟨pre, (List.nil_append pre).symm, by simpa using h⟩
  | cons a l1' ih =>
    intro l2 pre suf r h
    cases pre with
    | nil =>
      simp only [List.cons_append, List.nil_append] at h
      injection h with h1 h2
      exact Or.inl ⟨l1', by rw [List.nil_append, h1]⟩
    | cons p pre' =>
      simp only [List.cons_append] at h
      injection h with h1 h2
      rcases ih l2 pre' suf r h2 with ⟨s1, hs⟩ | ⟨p2, hp, hl2⟩
      · exact Or.inl ⟨s1, by rw [List.cons_append, ← h1, hs]⟩
      · exact Or.inr ⟨p2, by rw [List.cons_append, h1, hp], hl2⟩

theorem SOk_nil (hist : List CategoryRecord) : SOk hist [] := by
  intro pre r suf h
  cases pre <;> simp at h

theorem SOk_append (hist o1 o2 : List CategoryRecord)
    (h1 : SOk hist o1) (h2 : SOk (hist ++ o1) o2) : SOk hist (o1 ++ o2) := by
  intro pre r suf heq
  rcases split_middle o1 o2 pre suf r heq with ⟨s1, hs⟩ | ⟨p2, hp, hl2⟩
  · exact h1 pre r s1 hs
  · rw [h2 p2 r suf hl2, hp, countKey_append, countKey_append]
    congr 1
    omega

theorem SOk_single (hist : List CategoryRecord) (rec : CategoryRecord)
    (h : rec.slug = slugOfCount (generate_slug rec.name) (countKey (recKey rec) hist + 1)) :
    SOk hist [rec] := by
  intro pre r suf heq
  cases pre with
  | nil =>
    simp only [List.nil_append] at heq
    injection heq with h1 h2
    rw [← h1]
    simpa [countKey] using h
  | cons p pre' =>
    simp only [List.cons_append] at heq
    injection heq with h1 h2
    exfalso
    cases pre' <;> simp at h2


theorem TInv_snoc (tr : Tracker) (hist : List CategoryRecord) (rec : CategoryRecord)
    (ht : TInv tr hist) :
    TInv (trSet tr (recKey rec) (countKey (recKey rec) hist + 1)) (hist ++ [rec]) := by
  intro k
  rw [trFind_trSet, countKey_append, countKey_cons]
  have hnil : countKey k ([] : List CategoryRecord) = 0 := rfl
  rw [hnil]
  by_cases hk : k = recKey rec
  · subst hk
    rw [if_pos rfl, if_pos rfl, if_neg (by omega)]
  · rw [if_neg hk, if_neg (fun hc : recKey rec = k => hk hc.symm), ht k]
    rw [show (0 : Nat) + 0 = 0 from rfl, Nat.add_zero]

theorem parse_slug_all (gen : Nat → String) (clock : Nat → Nat) :
    (∀ t : CategoryNode, ∀ parent tr ctr hist, TInv tr hist →
      TInv (parse_categories gen clock t parent tr ctr).2.1
        (hist ++ (parse_categories gen clock t parent tr ctr).1) ∧
      SOk hist (parse_categories gen clock t parent tr ctr).1) ∧
    ∀ ts : NodeList, ∀ parent tr ctr hist, TInv tr hist →
      TInv (parse_categories_list gen clock ts parent tr ctr).2.1
        (hist ++ (parse_categories_list gen clock ts parent tr ctr).1) ∧
      SOk hist (parse_categories_list gen clock ts parent tr ctr).1 := by
  apply node_ind
  · intro i n cs ih parent tr ctr hist ht
    by_cases h : i = some "root"
    · rw [parse_root gen clock i n cs parent tr ctr h]
      exact ih none tr ctr hist ht
    · cases hfind : trFind tr (parentKeyStr parent, generate_slug (n.getD "")) with
      | none =>
        have hcnt : countKey (parentKeyStr parent, generate_slug (n.getD "")) hist = 0 := by
          by_contra hne
          rw [ht (parentKeyStr parent, generate_slug (n.getD "")), if_neg hne] at hfind
          simp at hfind
        rw [parse_mk_new gen clock i n cs parent tr ctr h hfind]
        simp only []
        have hsingle : SOk hist
            [⟨gen ctr, parent, n.getD "", generate_slug (n.getD ""), true, clock ctr⟩] := by
          apply SOk_single
          show generate_slug (n.getD "") = slugOfCount (generate_slug (n.getD ""))
            (countKey (parentKeyStr parent, generate_slug (n.getD "")) hist + 1)
          rw [hcnt]
          simp [slugOfCount]
        have hti2 : TInv (trSet tr (parentKeyStr parent, generate_slug (n.getD "")) 1)
            (hist ++ [⟨gen ctr, parent, n.getD "", generate_slug (n.getD ""), true, clock ctr⟩]) := by
          rw [show trSet tr (parentKeyStr parent, generate_slug (n.getD "")) 1 =
              trSet tr (parentKeyStr parent, generate_slug (n.getD ""))
                (countKey (parentKeyStr parent, generate_slug (n.getD "")) hist + 1) by
            rw [hcnt]]
          exact TInv_snoc tr hist
            ⟨gen ctr, parent, n.getD "", generate_slug (n.getD ""), true, clock ctr⟩ ht
        obtain ⟨hti3, hsok3⟩ := ih (some (gen ctr))
          (trSet tr (parentKeyStr parent, generate_slug (n.getD "")) 1) (ctr + 1)
          (hist ++ [⟨gen ctr, parent, n.getD "", generate_slug (n.getD ""), true, clock ctr⟩]) hti2
        constructor
        · rw [List.append_assoc] at hti3
          simpa using hti3
        · have := SOk_append hist
            [⟨gen ctr, parent, n.getD "", generate_slug (n.getD ""), true, clock ctr⟩]
            (parse_categories_list gen clock cs (some (gen ctr))
              (trSet tr (parentKeyStr parent, generate_slug (n.getD "")) 1) (ctr + 1)).1
            hsingle hsok3
          simpa using this
      | some c =>
        have hcc : countKey (parentKeyStr parent, generate_slug (n.getD "")) hist = c ∧ c ≠ 0 := by
          rw [ht (parentKeyStr parent, generate_slug (n.getD ""))] at hfind
          by_cases h0 : countKey (parentKeyStr parent, generate_slug (n.getD "")) hist = 0
          · rw [if_pos h0] at hfind
            simp at hfind
          · rw [if_neg h0] at hfind
            have h1 := Option.some.inj hfind
            exact ⟨h1, h1 ▸ h0⟩
        rw [parse_mk_found gen clock i n cs parent tr ctr c h hfind]
        simp only []
        have hsingle : SOk hist
            [⟨gen ctr, parent, n.getD "",
              generate_slug (n.getD "") ++ "-" ++ toString (c + 1), true, clock ctr⟩] := by
          apply SOk_single
          show generate_slug (n.getD "") ++ "-" ++ toString (c + 1) =
            slugOfCount (generate_slug (n.getD ""))
              (countKey (parentKeyStr parent, generate_slug (n.getD "")) hist + 1)
          rw [hcc.1]
          simp [slugOfCount, hcc.2]
        have hti2 : TInv (trSet tr (parentKeyStr parent, generate_slug (n.getD "")) (c + 1))
            (hist ++ [⟨gen ctr, parent, n.getD "",
              generate_slug (n.getD "") ++ "-" ++ toString (c + 1), true, clock ctr⟩]) := by
          rw [show trSet tr (parentKeyStr parent, generate_slug (n.getD "")) (c + 1) =
              trSet tr (parentKeyStr parent, generate_slug (n.getD ""))
                (countKey (parentKeyStr parent, generate_slug (n.getD "")) hist + 1) by
            rw [hcc.1]]
          exact TInv_snoc tr hist
            ⟨gen ctr, parent, n.getD "",
              generate_slug (n.getD "") ++ "-" ++ toString (c + 1), true, clock ctr⟩ ht
        obtain ⟨hti3, hsok3⟩ := ih (some (gen ctr))
          (trSet tr (parentKeyStr parent, generate_slug (n.getD "")) (c + 1)) (ctr + 1)
          (hist ++ [⟨gen ctr, parent, n.getD "",
            generate_slug (n.getD "") ++ "-" ++ toString (c + 1), true, clock ctr⟩]) hti2
        constructor
        · rw [List.append_assoc] at hti3
          simpa using hti3
        · have := SOk_append hist
            [⟨gen ctr, parent, n.getD "",
              generate_slug (n.getD "") ++ "-" ++ toString (c + 1), true, clock ctr⟩]
            (parse_categories_list gen clock cs (some (gen ctr))
              (trSet tr (parentKeyStr parent, generate_slug (n.getD "")) (c + 1)) (ctr + 1)).1
            hsingle hsok3
          simpa using this
  · intro parent tr ctr hist ht
    rw [parse_list_nil]
    refine ⟨by simpa using ht, SOk_nil hist⟩
  · intro c cs ihc ihcs parent tr ctr hist ht
    rw [parse_list_cons]
    simp only []
    obtain ⟨ht1, hs1⟩ := ihc parent tr ctr hist ht
    obtain ⟨ht2, hs2⟩ := ihcs parent (parse_categories gen clock c parent tr ctr).2.1
      (parse_categories gen clock c parent tr ctr).2.2
      (hist ++ (parse_categories gen clock c parent tr ctr).1) ht1
    refine ⟨?_, SOk_append _ _ _ hs1 hs2⟩
    rw [← List.append_assoc]
    exact ht2

/-- C6: within one traversal started with an empty tracker, the records
emitted under a common tracker key — the `(parent-identifier-or-sentinel,
base_slug)` pair — are numbered in output order: the first occurrence gets
the base slug unmodified and the `n`-th occurrence (`n ≥ 2`) gets
`base_slug ++ "-" ++ n`. -/
theorem spec_C6 (gen : Nat → String) (clock : Nat → Nat) (t : CategoryNode)
    (pre : List CategoryRecord) (r : CategoryRecord) (suf : List CategoryRecord)
    (heq : (parse_categories gen clock t none [] 0).1 = pre ++ r :: suf) :
    r.slug = slugOfCount (generate_slug r.name) (countKey (recKey r) pre + 1) := by
  have h0 : TInv [] [] := by
    intro k
    simp [trFind, countKey]
  have hs := ((parse_slug_all gen clock).1 t none [] 0 [] h0).2 pre r suf heq
  simpa [countKey] using hs

theorem spec_C6_witness :
    ((parse_categories exGen exClock shoesTree none [] 0).1 =
      [⟨"a", none, mensShoes, "mens-shoes", true, 0⟩] ++
        (⟨"aa", none, mensShoes, "mens-shoes-2", true, 0⟩ : CategoryRecord) ::
        [⟨"aaa", none, mensShoes, "mens-shoes-3", true, 0⟩]) ∧
    (⟨"aa", none, mensShoes, "mens-shoes-2", true, 0⟩ : CategoryRecord).slug =
      slugOfCount
        (generate_slug (⟨"aa", none, mensShoes, "mens-shoes-2", true, 0⟩ :
          CategoryRecord).name)
        (countKey (recKey ⟨"aa", none, mensShoes, "mens-shoes-2", true, 0⟩)
          [⟨"a", none, mensShoes, "mens-shoes", true, 0⟩] + 1) ∧
    slugOfCount (generate_slug mensShoes) 2 = "mens-shoes-2" :=
  ⟨by decide,
   spec_C6 exGen exClock shoesTree
     [⟨"a", none, mensShoes, "mens-shoes", true, 0⟩]
     (⟨"aa", none, mensShoes, "mens-shoes-2", true, 0⟩ : CategoryRecord)
     [⟨"aaa", none, mensShoes, "mens-shoes-3", true, 0⟩] (by decide),
   by decide⟩

theorem trackerSim_set_root (gen1 gen2 : Nat → String) (tr1 tr2 : Tracker)
    (hg1 : GoodGen gen1) (hg2 : GoodGen gen2)
    (hts : TrackerSim gen1 gen2 tr1 tr2) (b : String) (v : Nat) :
    TrackerSim gen1 gen2 (trSet tr1 ("root", b) v) (trSet tr2 ("root", b) v) := by
  constructor
  · intro b'
    rw [trFind_trSet, trFind_trSet]
    by_cases h : (("root", b') : SlugKey) = ("root", b)
    · rw [if_pos h, if_pos h]
    · rw [if_neg h, if_neg h]
      exact hts.1 b'
  · intro k b'
    rw [trFind_trSet, trFind_trSet]
    have h1 : ¬ ((gen1 k, b') : SlugKey) = ("root", b) := by
      intro hc
      exact (hg1.2 k).1 (congrArg Prod.fst hc)
    have h2 : ¬ ((gen2 k, b') : SlugKey) = ("root", b) := by
      intro hc
      exact (hg2.2 k).1 (congrArg Prod.fst hc)
    rw [if_neg h1, if_neg h2]
    exact hts.2 k b'

theorem trackerSim_set_gen (gen1 gen2 : Nat → String) (tr1 tr2 : Tracker)
    (hg1 : GoodGen gen1) (hg2 : GoodGen gen2)
    (hts : TrackerSim gen1 gen2 tr1 tr2) (m : Nat) (b : String) (v : Nat) :
    TrackerSim gen1 gen2 (trSet tr1 (gen1 m, b) v) (trSet tr2 (gen2 m, b) v) := by
  constructor
  · intro b'
    rw [trFind_trSet, trFind_trSet]
    have h1 : ¬ (("root", b') : SlugKey) = (gen1 m, b) := by
      intro hc
      exact (hg1.2 m).1 (congrArg Prod.fst hc).symm
    have h2 : ¬ (("root", b') : SlugKey) = (gen2 m, b) := by
      intro hc
      exact (hg2.2 m).1 (congrArg Prod.fst hc).symm
    rw [if_neg h1, if_neg h2]
    exact hts.1 b'
  · intro k b'
    rw [trFind_trSet, trFind_trSet]
    by_cases hkm : k = m ∧ b' = b
    · obtain ⟨hk, hb⟩ := hkm
      subst hk
      subst hb
      rw [if_pos rfl, if_pos rfl]
    · have h1 : ¬ ((gen1 k, b') : SlugKey) = (gen1 m, b) := by
        intro hc
        exact hkm ⟨hg1.1 (congrArg Prod.fst hc), congrArg Prod.snd hc⟩
      have h2 : ¬ ((gen2 k, b') : SlugKey) = (gen2 m, b) := by
        intro hc
        exact hkm ⟨hg2.1 (congrArg Prod.fst hc), congrArg Prod.snd hc⟩
      rw [if_neg h1, if_neg h2]
      exact hts.2 k b'

theorem parse_sim_all (gen1 gen2 : Nat → String) (clock1 clock2 : Nat → Nat)
    (hg1 : GoodGen gen1) (hg2 : GoodGen gen2) :
    (∀ t : CategoryNode, ∀ p1 p2 tr1 tr2 ctr,
      TrackerSim gen1 gen2 tr1 tr2 → ParentSim gen1 gen2 p1 p2 →
      ((parse_categories gen1 clock1 t p1 tr1 ctr).1.map projRec =
        (parse_categories gen2 clock2 t p2 tr2 ctr).1.map projRec) ∧
      TrackerSim gen1 gen2 (parse_categories gen1 clock1 t p1 tr1 ctr).2.1
        (parse_categories gen2 clock2 t p2 tr2 ctr).2.1) ∧
    ∀ ts : NodeList, ∀ p1 p2 tr1 tr2 ctr,
      TrackerSim gen1 gen2 tr1 tr2 → ParentSim gen1 gen2 p1 p2 →
      ((parse_categories_list gen1 clock1 ts p1 tr1 ctr).1.map projRec =
        (parse_categories_list gen2 clock2 ts p2 tr2 ctr).1.map projRec) ∧
      TrackerSim gen1 gen2 (parse_categories_list gen1 clock1 ts p1 tr1 ctr).2.1
        (parse_categories_list gen2 clock2 ts p2 tr2 ctr).2.1 := by
  apply node_ind
  · intro i n cs ih p1 p2 tr1 tr2 ctr hts hps
    by_cases h : i = some "root"
    · rw [parse_root gen1 clock1 i n cs p1 tr1 ctr h,
        parse_root gen2 clock2 i n cs p2 tr2 ctr h]
      exact ih none none tr1 tr2 ctr hts (Or.inl ⟨rfl, rfl⟩)
    · have hkey : ∀ b : String,
          trFind tr1 (parentKeyStr p1, b) = trFind tr2 (parentKeyStr p2, b) ∧
          ∀ v, TrackerSim gen1 gen2 (trSet tr1 (parentKeyStr p1, b) v)
            (trSet tr2 (parentKeyStr p2, b) v) := by
        intro b
        rcases hps with ⟨hp1, hp2⟩ | ⟨m, hp1, hp2⟩
        · subst hp1
          subst hp2
          exact ⟨hts.1 b, fun v => trackerSim_set_root gen1 gen2 tr1 tr2 hg1 hg2 hts b v⟩
        · subst hp1
          subst hp2
          have hpk1 : parentKeyStr (some (gen1 m)) = gen1 m := by
            simp [parentKeyStr, (hg1.2 m).2]
          have hpk2 : parentKeyStr (some (gen2 m)) = gen2 m := by
            simp [parentKeyStr, (hg2.2 m).2]
          rw [hpk1, hpk2]
          exact ⟨hts.2 m b, fun v => trackerSim_set_gen gen1 gen2 tr1 tr2 hg1 hg2 hts m b v⟩
      cases hfind : trFind tr1 (parentKeyStr p1, generate_slug (n.getD "")) with
      | none =>
        have hfind2 : trFind tr2 (parentKeyStr p2, generate_slug (n.getD "")) = none := by
          rw [← (hkey (generate_slug (n.getD ""))).1]
          exact hfind
        rw [parse_mk_new gen1 clock1 i n cs p1 tr1 ctr h hfind,
          parse_mk_new gen2 clock2 i n cs p2 tr2 ctr h hfind2]
        simp only []
        obtain ⟨hmap, hts'⟩ := ih (some (gen1 ctr)) (some (gen2 ctr))
          (trSet tr1 (parentKeyStr p1, generate_slug (n.getD "")) 1)
          (trSet tr2 (parentKeyStr p2, generate_slug (n.getD "")) 1) (ctr + 1)
          ((hkey (generate_slug (n.getD ""))).2 1) (Or.inr ⟨ctr, rfl, rfl⟩)
        constructor
        · simp only [List.map_cons]
          rw [hmap]
          rfl
        · exact hts'
      | some c =>
        have hfind2 : trFind tr2 (parentKeyStr p2, generate_slug (n.getD "")) = some c := by
          rw [← (hkey (generate_slug (n.getD ""))).1]
          exact hfind
        rw [parse_mk_found gen1 clock1 i n cs p1 tr1 ctr c h hfind,
          parse_mk_found gen2 clock2 i n cs p2 tr2 ctr c h hfind2]
        simp only []
        obtain ⟨hmap, hts'⟩ := ih (some (gen1 ctr)) (some (gen2 ctr))
          (trSet tr1 (parentKeyStr p1, generate_slug (n.getD "")) (c + 1))
          (trSet tr2 (parentKeyStr p2, generate_slug (n.getD "")) (c + 1)) (ctr + 1)
          ((hkey (generate_slug (n.getD ""))).2 (c + 1)) (Or.inr ⟨ctr, rfl, rfl⟩)
        constructor
        · simp only [List.map_cons]
          rw [hmap]
          rfl
        · exact hts'
  · intro p1 p2 tr1 tr2 ctr hts hps
    rw [parse_list_nil, parse_list_nil]
    exact ⟨rfl, hts⟩
  · intro c cs ihc ihcs p1 p2 tr1 tr2 ctr hts hps
    rw [parse_list_cons, parse_list_cons]
    simp only []
    obtain ⟨hm1, hts1⟩ := ihc p1 p2 tr1 tr2 ctr hts hps
    have hctr : (parse_categories gen1 clock1 c p1 tr1 ctr).2.2 =
        (parse_categories gen2 clock2 c p2 tr2 ctr).2.2 := by
      rw [parse_counter, parse_counter]
    rw [← hctr]
    obtain ⟨hm2, hts2⟩ := ihcs p1 p2 (parse_categories gen1 clock1 c p1 tr1 ctr).2.1
      (parse_categories gen2 clock2 c p2 tr2 ctr).2.1
      (parse_categories gen1 clock1 c p1 tr1 ctr).2.2 hts1 hps
    constructor
    · simp only [List.map_append]
      rw [hm1, hm2]
    · exact hts2

/-- C7 (amended): with the two effects the code performs per emitted record —
drawing a fresh identifier from `uuid.uuid4()` and reading the clock — made
explicit as input supplies, `parse_categories` is a total pure function, and
two runs on the same input tree agree on everything except those supplies:
for any two injective identifier supplies avoiding the sentinel `"root"` and
the empty string, and any two clocks, the two output sequences have
identical `name`, `slug` and `is_active` fields, record for record. -/
theorem spec_C7 (gen1 gen2 : Nat → String) (clock1 clock2 : Nat → Nat)
    (hg1 : GoodGen gen1) (hg2 : GoodGen gen2) (t : CategoryNode) :
    (parse_categories gen1 clock1 t none [] 0).1.map projRec =
      (parse_categories gen2 clock2 t none [] 0).1.map projRec :=
  ((parse_sim_all gen1 gen2 clock1 clock2 hg1 hg2).1 t none none [] [] 0
    ⟨fun _ => rfl, fun _ _ => rfl⟩ (Or.inl ⟨rfl, rfl⟩)).1

/-- C7 counterexample: the claim's "two runs on the same input produce
identical output sequences" fails for the code as written, because
`uuid.uuid4()` (and `datetime.now`) yield different values on each run: two
runs of the flattener on the same one-node tree that differ only in the
fresh-identifier supply produce different output sequences. -/
theorem spec_C7_counterexample :
    parse_categories exGen exClock (leafNode "a") none [] 0 ≠
      parse_categories exGen2 exClock (leafNode "a") none [] 0 := by
  decide

theorem exGen_good : GoodGen exGen := by
  constructor
  · intro m n hm
    have h2 : List.replicate (m + 1) 'a' = List.replicate (n + 1) 'a' :=
      congrArg String.data hm
    have h3 := congrArg List.length h2
    simp only [List.length_replicate] at h3
    omega
  · intro n
    constructor
    · intro hc
      have h2 : List.replicate (n + 1) 'a' = ['r', 'o', 'o', 't'] := congrArg String.data hc
      rw [List.replicate_succ] at h2
      injection h2 with ha _
      exact absurd ha (by decide)
    · intro hc
      have h2 : List.replicate (n + 1) 'a' = [] := congrArg String.data hc
      rw [List.replicate_succ] at h2
      exact List.cons_ne_nil _ _ h2

theorem exGen2_good : GoodGen exGen2 := by
  constructor
  · intro m n hm
    have h2 : List.replicate (m + 1) 'b' = List.replicate (n + 1) 'b' :=
      congrArg String.data hm
    have h3 := congrArg List.length h2
    simp only [List.length_replicate] at h3
    omega
  · intro n
    constructor
    · intro hc
      have h2 : List.replicate (n + 1) 'b' = ['r', 'o', 'o', 't'] := congrArg String.data hc
      rw [List.replicate_succ] at h2
      injection h2 with ha _
      exact absurd ha (by decide)
    · intro hc
      have h2 : List.replicate (n + 1) 'b' = [] := congrArg String.data hc
      rw [List.replicate_succ] at h2
      exact List.cons_ne_nil _ _ h2

theorem spec_C7_witness :
    (parse_categories exGen exClock shoesTree none [] 0).1.map projRec =
      (parse_categories exGen2 exClock shoesTree none [] 0).1.map projRec :=
  spec_C7 exGen exGen2 exClock exClock exGen_good exGen2_good shoesTree

theorem execBatch_ok : ∀ (rows : List CategoryRecord) (pending : List CategoryRecord) (i : Nat),
    execBatch none pending rows i = Except.ok (applyUpserts pending rows) := by
  intro rows
  induction rows with
  | nil =>
    intro pending i
    rfl
  | cons r rs ih =>
    intro pending i
    rw [show execBatch none pending (r :: rs) i =
      execBatch none (upsertRow pending r) rs (i + 1) by simp [execBatch]]
    rw [ih (upsertRow pending r) (i + 1)]
    rfl

theorem execBatch_fail : ∀ (rows : List CategoryRecord) (pending : List CategoryRecord)
    (i k : Nat), i ≤ k → k < i + rows.length →
    execBatch (some k) pending rows i = Except.error "insert failed" := by
  intro rows
  induction rows with
  | nil =>
    intro pending i k h1 h2
    simp at h2
    omega
  | cons r rs ih =>
    intro pending i k h1 h2
    by_cases h : k = i
    · rw [show execBatch (some k) pending (r :: rs) i = Except.error "insert failed" by
        simp [execBatch, h]]
    · rw [show execBatch (some k) pending (r :: rs) i =
        execBatch (some k) (upsertRow pending r) rs (i + 1) by simp [execBatch, h]]
      apply ih (upsertRow pending r) (i + 1) k (by omega)
      simp only [List.length_cons] at h2
      omega

/-- C8: the persistence step is all-or-nothing.  If the database raises at
any row of the batch, `insert_categories` rolls the whole transaction back —
the stored table is exactly what it was before the call — and re-raises the
error; and when no row fails, the whole batch of upserts is committed.
There is no per-record error isolation. -/
theorem spec_C8 (tbl recs : List CategoryRecord) (k : Nat) (hk : k < recs.length) :
    insert_categories (some k) tbl recs = (tbl, some "insert failed") ∧
    insert_categories none tbl recs = (applyUpserts tbl recs, none) := by
  constructor
  · rw [show insert_categories (some k) tbl recs =
        match execBatch (some k) tbl recs 0 with
        | Except.ok t => (t, none)
        | Except.error e => (tbl, some e) from rfl,
      execBatch_fail recs tbl 0 k (Nat.zero_le k) (by simpa using hk)]
  · rw [show insert_categories none tbl recs =
        match execBatch none tbl recs 0 with
        | Except.ok t => (t, none)
        | Except.error e => (tbl, some e) from rfl,
      execBatch_ok recs tbl 0]

theorem spec_C8_witness :
    (0 < ([rowA, rowB] : List CategoryRecord).length) ∧
    insert_categories (some 0) [] [rowA, rowB] = ([], some "insert failed") ∧
    insert_categories none [] [rowA, rowB] = (applyUpserts [] [rowA, rowB], none) :=
  ⟨by decide, (spec_C8 [] [rowA, rowB] 0 (by decide)).1, (spec_C8 [] [rowA, rowB] 0 (by decide)).2⟩

theorem lookupId_upsert (T : List CategoryRecord) (r : CategoryRecord) (i : String) :
    lookupId (upsertRow T r) i = if r.id = i then some r else lookupId T i := by
  induction T with
  | nil =>
    by_cases h : r.id = i <;> simp [upsertRow, lookupId, h]
  | cons row rest ih =>
    by_cases h : row.id = r.id
    · rw [show upsertRow (row :: rest) r = r :: rest by simp [upsertRow, h]]
      by_cases hri : r.id = i
      · simp [lookupId, hri]
      · have hrow : ¬ row.id = i := fun hc => hri (h.symm.trans hc)
        simp [lookupId, hri, hrow]
    · rw [show upsertRow (row :: rest) r = row :: upsertRow rest r by simp [upsertRow, h]]
      by_cases hrow : row.id = i
      · have hri : ¬ r.id = i := fun hc => h (hrow.trans hc.symm)
        simp [lookupId, hrow, hri]
      · simp [lookupId, hrow, ih]

theorem tableIds_upsert_mem (T : List CategoryRecord) (r : CategoryRecord)
    (h : r.id ∈ tableIds T) : tableIds (upsertRow T r) = tableIds T := by
  induction T with
  | nil => simp [tableIds] at h
  | cons row rest ih =>
    by_cases he : row.id = r.id
    · rw [show upsertRow (row :: rest) r = r :: rest by simp [upsertRow, he]]
      simp [tableIds, he]
    · rw [show upsertRow (row :: rest) r = row :: upsertRow rest r by simp [upsertRow, he]]
      have hmem : r.id ∈ tableIds rest := by
        simp only [tableIds, List.map_cons, List.mem_cons] at h
        rcases h with h | h
        · exact absurd h.symm he
        · exact h
      rw [show tableIds (row :: upsertRow rest r) = row.id :: tableIds (upsertRow rest r)
        from rfl, ih hmem]
      rfl

theorem tableIds_upsert_not_mem (T : List CategoryRecord) (r : CategoryRecord)
    (h : ¬ r.id ∈ tableIds T) : tableIds (upsertRow T r) = tableIds T ++ [r.id] := by
  induction T with
  | nil => simp [tableIds, upsertRow]
  | cons row rest ih =>
    have he : ¬ row.id = r.id := by
      intro hc
      exact h (by simp [tableIds, hc.symm])
    rw [show upsertRow (row :: rest) r = row :: upsertRow rest r by simp [upsertRow, he]]
    have hmem : ¬ r.id ∈ tableIds rest := by
      intro hc
      exact h (by simp [tableIds] at hc ⊢; exact Or.inr hc)
    rw [show tableIds (row :: upsertRow rest r) = row.id :: tableIds (upsertRow rest r)
      from rfl, ih hmem]
    rfl

theorem nodup_upsert (T : List CategoryRecord) (r : CategoryRecord)
    (h : (tableIds T).Nodup) : (tableIds (upsertRow T r)).Nodup := by
  by_cases hm : r.id ∈ tableIds T
  · rw [tableIds_upsert_mem T r hm]
    exact h
  · rw [tableIds_upsert_not_mem T r hm]
    refine List.Nodup.append h (by simp) ?_
    intro a ha hb
    simp at hb
    exact hm (hb ▸ ha)

theorem mem_ids_upsert_mono (T : List CategoryRecord) (r : CategoryRecord) (i : String)
    (h : i ∈ tableIds T) : i ∈ tableIds (upsertRow T r) := by
  by_cases hm : r.id ∈ tableIds T
  · rw [tableIds_upsert_mem T r hm]
    exact h
  · rw [tableIds_upsert_not_mem T r hm]
    exact List.mem_append_left _ h

theorem mem_ids_upsert_self (T : List CategoryRecord) (r : CategoryRecord) :
    r.id ∈ tableIds (upsertRow T r) := by
  by_cases hm : r.id ∈ tableIds T
  · rw [tableIds_upsert_mem T r hm]
    exact hm
  · rw [tableIds_upsert_not_mem T r hm]
    simp

theorem mem_ids_applyUpserts_mono : ∀ (rs : List CategoryRecord) (T : List CategoryRecord)
    (i : String), i ∈ tableIds T → i ∈ tableIds (applyUpserts T rs) := by
  intro rs
  induction rs with
  | nil =>
    intro T i h
    exact h
  | cons r rs' ih =>
    intro T i h
    exact ih (upsertRow T r) i (mem_ids_upsert_mono T r i h)

theorem mem_ids_applyUpserts_self : ∀ (rs : List CategoryRecord) (T : List CategoryRecord)
    (r : CategoryRecord), r ∈ rs → r.id ∈ tableIds (applyUpserts T rs) := by
  intro rs
  induction rs with
  | nil =>
    intro T r h
    simp at h
  | cons s rs' ih =>
    intro T r h
    rcases List.mem_cons.mp h with heq | hmem
    · subst heq
      exact mem_ids_applyUpserts_mono rs' (upsertRow T r) r.id (mem_ids_upsert_self T r)
    · exact ih (upsertRow T s) r hmem

theorem ids_applyUpserts_of_subset : ∀ (rs : List CategoryRecord) (T : List CategoryRecord),
    (∀ r ∈ rs, r.id ∈ tableIds T) → tableIds (applyUpserts T rs) = tableIds T := by
  intro rs
  induction rs with
  | nil =>
    intro T _
    rfl
  | cons r rs' ih =>
    intro T h
    have h1 : tableIds (upsertRow T r) = tableIds T :=
      tableIds_upsert_mem T r (h r (List.mem_cons_self r rs'))
    rw [show applyUpserts T (r :: rs') = applyUpserts (upsertRow T r) rs' from rfl,
      ih (upsertRow T r) (fun s hs => h1 ▸ h s (List.mem_cons_of_mem r hs)), h1]

theorem nodup_applyUpserts : ∀ (rs : List CategoryRecord) (T : List CategoryRecord),
    (tableIds T).Nodup → (tableIds (applyUpserts T rs)).Nodup := by
  intro rs
  induction rs with
  | nil =>
    intro T h
    exact h
  | cons r rs' ih =>
    intro T h
    exact ih (upsertRow T r) (nodup_upsert T r h)

theorem lookupId_applyUpserts : ∀ (rs : List CategoryRecord) (T : List CategoryRecord)
    (i : String), lookupId (applyUpserts T rs) i =
      match lastOcc rs i with
      | some x => some x
      | none => lookupId T i := by
  intro rs
  induction rs with
  | nil =>
    intro T i
    rfl
  | cons r rs' ih =>
    intro T i
    rw [show applyUpserts T (r :: rs') = applyUpserts (upsertRow T r) rs' from rfl,
      ih (upsertRow T r) i, lookupId_upsert]
    cases hl : lastOcc rs' i with
    | some x => simp [lastOcc, hl]
    | none =>
      by_cases hri : r.id = i <;> simp [lastOcc, hl, hri]

theorem lookupId_none_of_not_mem : ∀ (T : List CategoryRecord) (i : String),
    ¬ i ∈ tableIds T → lookupId T i = none := by
  intro T
  induction T with
  | nil =>
    intro i _
    rfl
  | cons row rest ih =>
    intro i h
    have h1 : ¬ row.id = i := by
      intro hc
      exact h (by simp [tableIds, hc])
    have h2 : ¬ i ∈ tableIds rest := by
      intro hc
      exact h (by simp [tableIds] at hc ⊢; exact Or.inr hc)
    simp [lookupId, h1, ih i h2]

theorem table_ext : ∀ (T U : List CategoryRecord), (tableIds T).Nodup →
    tableIds T = tableIds U → (∀ i, lookupId T i = lookupId U i) → T = U := by
  intro T
  induction T with
  | nil =>
    intro U _ hids _
    have : tableIds U = [] := hids.symm
    cases U with
    | nil => rfl
    | cons b U' => simp [tableIds] at this
  | cons a T' ih =>
    intro U hnd hids hlook
    cases U with
    | nil => simp [tableIds] at hids
    | cons b U' =>
      simp only [tableIds, List.map_cons] at hids
      injection hids with hid hids'
      have hab : a = b := by
        have h1 := hlook a.id
        rw [show lookupId (a :: T') a.id = some a by simp [lookupId],
          show lookupId (b :: U') a.id = some b by simp [lookupId, hid.symm]] at h1
        exact Option.some.inj h1
      have hnd' := List.nodup_cons.mp (show (a.id :: tableIds T').Nodup from hnd)
      have hidsT : tableIds T' = tableIds U' := hids'
      have htail : T' = U' := by
        apply ih U' hnd'.2 hidsT
        intro i
        by_cases hi : a.id = i
        · rw [lookupId_none_of_not_mem T' i (hi ▸ hnd'.1),
            lookupId_none_of_not_mem U' i (by rw [← hidsT]; exact hi ▸ hnd'.1)]
        · have hbi : ¬ b.id = i := fun hc => hi (hid.trans hc)
          have h1 := hlook i
          rw [show lookupId (a :: T') i = lookupId T' i by simp [lookupId, hi],
            show lookupId (b :: U') i = lookupId U' i by simp [lookupId, hbi]] at h1
          exact h1
      rw [hab, htail]

theorem applyUpserts_idem (tbl recs : List CategoryRecord)
    (hnd : (tableIds tbl).Nodup) :
    applyUpserts (applyUpserts tbl recs) recs = applyUpserts tbl recs := by
  apply table_ext
  · exact nodup_applyUpserts recs _ (nodup_applyUpserts recs tbl hnd)
  · exact ids_applyUpserts_of_subset recs (applyUpserts tbl recs)
      (fun r hr => mem_ids_applyUpserts_self recs tbl r hr)
  · intro i
    simp only [lookupId_applyUpserts]
    cases hl : lastOcc recs i <;> simp [hl]

/-- C9: the batch upsert is idempotent for a fixed record list: on a table
with unique identifiers, persisting the same batch twice (same identifiers)
leaves exactly the row set produced by persisting it once, because an
identifier collision overwrites every mutable field with the new values. -/
theorem spec_C9 (tbl recs : List CategoryRecord) (hnd : (tableIds tbl).Nodup) :
    (insert_categories none (insert_categories none tbl recs).1 recs).1 =
      (insert_categories none tbl recs).1 := by
  have hok : ∀ T : List CategoryRecord, insert_categories none T recs =
      (applyUpserts T recs, none) := by
    intro T
    rw [show insert_categories none T recs =
        match execBatch none T recs 0 with
        | Except.ok t => (t, none)
        | Except.error e => (T, some e) from rfl,
      execBatch_ok recs T 0]
  rw [hok tbl]
  simp only []
  rw [hok (applyUpserts tbl recs)]
  simp only []
  exact applyUpserts_idem tbl recs hnd

theorem spec_C9_witness :
    (tableIds ([] : List CategoryRecord)).Nodup ∧
    (insert_categories none
        (insert_categories none [] [rowA, rowA2, rowB]).1 [rowA, rowA2, rowB]).1 =
      (insert_categories none [] [rowA, rowA2, rowB]).1 :=
  ⟨by decide, spec_C9 [] [rowA, rowA2, rowB] (by decide)⟩
